import Mathlib

/-!
Verification of the bleachpdf redaction core (`src/bleachpdf/__init__.py`).

The development shallowly embeds the pure parts of the pipeline: word
normalization, stream construction (`build_stream`), grammar matching
(`find_matches`), adjacency grouping (`group_adjacent_words`), box geometry
(`compute_box`), the per-document orchestration (`_process_single_pdf`), the
batch exit-code aggregation at the end of `main`, and the worker-count policy
(`get_worker_count`).  External collaborators (OCR, rasterization, drawing,
the filesystem and compiled PEG grammars) are modelled as parameters: a
compiled grammar becomes a function from the stream text and a start offset
to an optional match length, and the document-level functions take an
abstract environment that stands for the world the Python code reads and
writes.  Machine integers are `Int`/`Nat` (Python integers are unbounded) and
the float comparison `abs(dt) < height * 0.5` is carried out in `ℚ`, where it
agrees with the Python float comparison for OCR-scale coordinates.
-/

namespace BleachPdf

/-- One OCR-recognized word with its pixel bounding box
(`Word` in the source). -/
structure Word where
  text : List Char
  left : Int
  top : Int
  width : Int
  height : Int
deriving DecidableEq, Repr

instance : Inhabited Word := ⟨⟨[], 0, 0, 1, 1⟩⟩

/-- `right = left + width` (derived property of `Word`). -/
def Word.right (w : Word) : Int := w.left + w.width

/-- `bottom = top + height` (derived property of `Word`). -/
def Word.bottom (w : Word) : Int := w.top + w.height

/-- Concatenated normalized text plus the map from character index back to
the originating word index (`TextStream` in the source). -/
structure TextStream where
  text : List Char
  word_map : List Nat
deriving DecidableEq, Repr

/-- A rectangular region to redact (`Box` in the source). -/
structure Box where
  left : Int
  top : Int
  right : Int
  bottom : Int
deriving DecidableEq, Repr

/-- `normalize`: strip everything except ASCII alphanumeric characters
(the source applies `re.sub(r"[^A-Za-z0-9]", "", text)`; `Char.isAlphanum`
is exactly the ASCII alphanumeric test). -/
def normalize (text : List Char) : List Char :=
  text.filter Char.isAlphanum

/-- One iteration of the `build_stream` loop body: append the normalized
word to the character accumulator and that many copies of the word's index
to the map accumulator. -/
def buildStep (acc : List Char × List Nat) (iw : Nat × Word) :
    List Char × List Nat :=
  let normalized := normalize iw.2.text
  (acc.1 ++ normalized, acc.2 ++ List.replicate normalized.length iw.1)

/-- `build_stream`: concatenate normalized words into a single text stream,
recording for every character the index of its source word. -/
def build_stream (words : List Word) : TextStream :=
  let r := words.enum.foldl buildStep ([], [])
  ⟨r.1, r.2⟩

/-- The word map of a stream, described structurally: block `k` (for the
word at position `n + k`) is `replicate` of that word's normalized length. -/
def repBlocks {α : Type} : Nat → List (List α) → List Nat
  | _, [] => []
  | n, b :: bs => List.replicate b.length n ++ repBlocks (n + 1) bs

theorem enumFrom_foldl_buildStep (l : List Word) :
    ∀ (n : Nat) (a : List Char) (b : List Nat),
      (List.enumFrom n l).foldl buildStep (a, b) =
        (a ++ (l.map fun w => normalize w.text).flatten,
         b ++ repBlocks n (l.map fun w => normalize w.text)) := by
  induction l with
  | nil => intro n a b; simp [repBlocks]
  | cons w ws ih =>
      intro n a b
      rw [List.enumFrom_cons, List.foldl_cons, ih]
      simp [buildStep, repBlocks, List.append_assoc]

/-- `build_stream` unrolled: the text is the flattening of the normalized
words and the word map is the corresponding run-length structure. -/
theorem build_stream_eq (words : List Word) :
    build_stream words =
      ⟨(words.map fun w => normalize w.text).flatten,
       repBlocks 0 (words.map fun w => normalize w.text)⟩ := by
  have h := enumFrom_foldl_buildStep words 0 [] []
  simp only [build_stream, List.enum, h, List.nil_append]

theorem repBlocks_length {α : Type} (L : List (List α)) :
    ∀ n, (repBlocks n L).length = (L.map List.length).sum := by
  induction L with
  | nil => intro n; simp [repBlocks]
  | cons b bs ih => intro n; simp [repBlocks, ih]

/-- Every entry of `repBlocks n L` lies in `[n, n + L.length)`. -/
theorem repBlocks_mem {α : Type} (L : List (List α)) :
    ∀ n x, x ∈ repBlocks n L → n ≤ x ∧ x < n + L.length := by
  induction L with
  | nil => intro n x hx; simp [repBlocks] at hx
  | cons b bs ih =>
      intro n x hx
      rw [repBlocks, List.mem_append] at hx
      rcases hx with hx | hx
      · have := List.eq_of_mem_replicate hx
        subst this
        simp
      · have := ih (n + 1) x hx
        constructor <;> [omega; (simp only [List.length_cons]; omega)]

/-- An entry `x` of `repBlocks n L` points at a block that is nonempty. -/
theorem repBlocks_mem_block_ne {α : Type} (L : List (List α)) :
    ∀ n x, x ∈ repBlocks n L → L.getD (x - n) [] ≠ [] := by
  induction L with
  | nil => intro n x hx; simp [repBlocks] at hx
  | cons b bs ih =>
      intro n x hx
      rw [repBlocks, List.mem_append] at hx
      rcases hx with hx | hx
      · rcases List.mem_replicate.mp hx with ⟨hb, rfl⟩
        simp only [Nat.sub_self, List.getD_cons_zero]
        intro hnil
        exact hb (by simp [hnil])
      · have hge := (repBlocks_mem bs (n + 1) x hx).1
        have hx' := ih (n + 1) x hx
        have : x - n = (x - (n + 1)) + 1 := by omega
        rw [this, List.getD_cons_succ]
        exact hx'

theorem repBlocks_sorted {α : Type} (L : List (List α)) :
    ∀ n, List.Sorted (· ≤ ·) (repBlocks n L) := by
  induction L with
  | nil => intro n; simp [repBlocks]
  | cons b bs ih =>
      intro n
      rw [repBlocks, List.Sorted, List.pairwise_append]
      refine ⟨List.pairwise_replicate.mpr (Or.inr le_rfl), ih (n + 1), ?_⟩
      intro x hx y hy
      have hxn : x = n := List.eq_of_mem_replicate hx
      have hyb := (repBlocks_mem bs (n + 1) y hy).1
      omega

/-- Index decomposition for a flattened list of blocks: position `i` of the
flattening lies inside block `j`, at relative offset `i - base` where `base`
is the total length of the blocks before `j`; the word map built by
`repBlocks` reports exactly `n + j` at that position. -/
theorem flatten_decomp {α : Type} (L : List (List α)) (d : α) :
    ∀ (n i : Nat), i < L.flatten.length →
      ∃ j, j < L.length ∧ (repBlocks n L).getD i 0 = n + j ∧
        ((L.take j).map List.length).sum ≤ i ∧
        i - ((L.take j).map List.length).sum < (L.getD j []).length ∧
        L.flatten.getD i d = (L.getD j []).getD (i - ((L.take j).map List.length).sum) d := by
  induction L with
  | nil => intro n i h; simp at h
  | cons b bs ih =>
      intro n i h
      rw [List.flatten_cons, List.length_append] at h
      by_cases hib : i < b.length
      · refine ⟨0, by simp, ?_, by simp, by simpa using hib, ?_⟩
        · rw [repBlocks, List.getD_append _ _ _ _ (by simpa using hib)]
          rw [List.getD_eq_getElem _ _ (by simpa using hib), List.getElem_replicate]
          omega
        · rw [List.flatten_cons, List.getD_append _ _ _ _ hib]
          simp
      · obtain ⟨j, hj, hget, hbase, hlt, heq⟩ := ih (n + 1) (i - b.length) (by omega)
        refine ⟨j + 1, by simpa using hj, ?_, ?_, ?_, ?_⟩
        · rw [repBlocks, List.getD_append_right _ _ _ _ (by simp; omega)]
          rw [List.length_replicate, hget]
          omega
        · simp only [List.take_succ_cons, List.map_cons, List.sum_cons]
          omega
        · simp only [List.take_succ_cons, List.map_cons, List.sum_cons,
            List.getD_cons_succ]
          have : i - (b.length + ((bs.take j).map List.length).sum) =
              i - b.length - ((bs.take j).map List.length).sum := by omega
          rw [this]
          exact hlt
        · rw [List.flatten_cons, List.getD_append_right _ _ _ _ (by omega)]
          simp only [List.take_succ_cons, List.map_cons, List.sum_cons,
            List.getD_cons_succ]
          have : i - (b.length + ((bs.take j).map List.length).sum) =
              i - b.length - ((bs.take j).map List.length).sum := by omega
          rw [this]
          exact heq

/-- The block list underlying `build_stream words`, read back through
`words`: block `j` is the normalization of word `j` (out of range, both
sides are `[]`). -/
theorem getD_map_normalize (words : List Word) (j : Nat) :
    (words.map fun w => normalize w.text).getD j [] =
      normalize (words.getD j default).text := by
  by_cases hj : j < words.length
  · rw [List.getD_eq_getElem _ _ (by simpa using hj), List.getD_eq_getElem _ _ hj,
      List.getElem_map]
  · rw [List.getD_eq_default _ _ (by simpa using not_lt.mp hj),
      List.getD_eq_default _ _ (not_lt.mp hj)]
    rfl

/-- Model of a compiled PEG grammar (`parsimonious.Grammar`): given the
stream text and a start offset, `some n` means the grammar matches a span of
`n` characters anchored there, `none` means it does not match (in the source
a failed match raises and the caller treats it as no match at that offset). -/
def Grammar : Type := List Char → Nat → Option Nat

/-- The word indices contributed by one `grammar.match(stream.text, start)`
attempt in `find_matches`: when the grammar matches `n` characters, every
character position `i` in `[start, start + n)` with `i < len(word_map)` adds
`word_map[i]`. -/
def matchAt (stream : TextStream) (g : Grammar) (start : Nat) : Finset Nat :=
  match g stream.text start with
  | none => ∅
  | some n =>
      (((List.range' start n).filter fun i => i < stream.word_map.length).map
        fun i => stream.word_map.getD i 0).toFinset

/-- `find_matches`: for each grammar and each start offset of the stream,
collect the word indices of every matched span. -/
def find_matches (stream : TextStream) (grammars : List Grammar) : Finset Nat :=
  grammars.foldl
    (fun acc g =>
      (List.range stream.text.length).foldl
        (fun acc2 start => acc2 ∪ matchAt stream g start) acc)
    ∅

theorem matchAt_none {stream : TextStream} {g : Grammar} {start : Nat}
    (h : g stream.text start = none) : matchAt stream g start = ∅ := by
  unfold matchAt
  rw [h]

theorem mem_matchAt {stream : TextStream} {g : Grammar} {start x : Nat}
    (hx : x ∈ matchAt stream g start) :
    ∃ i, i < stream.word_map.length ∧ stream.word_map.getD i 0 = x := by
  unfold matchAt at hx
  rcases hg : g stream.text start with _ | n <;> rw [hg] at hx
  · simp at hx
  · rw [List.mem_toFinset, List.mem_map] at hx
    obtain ⟨i, hi, rfl⟩ := hx
    rw [List.mem_filter, decide_eq_true_eq] at hi
    exact ⟨i, hi.2, rfl⟩

theorem mem_foldl_union {β : Type} (f : β → Finset Nat) (x : Nat) :
    ∀ (l : List β) (acc : Finset Nat),
      (x ∈ l.foldl (fun a b => a ∪ f b) acc ↔ x ∈ acc ∨ ∃ b ∈ l, x ∈ f b) := by
  intro l
  induction l with
  | nil => intro acc; simp
  | cons hd tl ih =>
      intro acc
      rw [List.foldl_cons, ih]
      simp only [Finset.mem_union, List.mem_cons]
      constructor
      · rintro ((h | h) | ⟨b, hb, hx⟩)
        · exact Or.inl h
        · exact Or.inr ⟨hd, Or.inl rfl, h⟩
        · exact Or.inr ⟨b, Or.inr hb, hx⟩
      · rintro (h | ⟨b, (rfl | hb), hx⟩)
        · exact Or.inl (Or.inl h)
        · exact Or.inl (Or.inr hx)
        · exact Or.inr ⟨b, hb, hx⟩

theorem mem_find_matches_aux (stream : TextStream) (x : Nat) :
    ∀ (gs : List Grammar) (acc : Finset Nat),
      (x ∈ gs.foldl
          (fun acc g =>
            (List.range stream.text.length).foldl
              (fun acc2 start => acc2 ∪ matchAt stream g start) acc)
          acc ↔
        x ∈ acc ∨ ∃ g ∈ gs, ∃ start, start < stream.text.length ∧
          x ∈ matchAt stream g start) := by
  intro gs
  induction gs with
  | nil => intro acc; simp
  | cons g gs ih =>
      intro acc
      rw [List.foldl_cons, ih, mem_foldl_union]
      simp only [List.mem_range, List.mem_cons]
      constructor
      · rintro ((h | ⟨s, hs, hx⟩) | ⟨g', hg', s, hs, hx⟩)
        · exact Or.inl h
        · exact Or.inr ⟨g, Or.inl rfl, s, hs, hx⟩
        · exact Or.inr ⟨g', Or.inr hg', s, hs, hx⟩
      · rintro (h | ⟨g', (rfl | hg'), s, hs, hx⟩)
        · exact Or.inl (Or.inl h)
        · exact Or.inl (Or.inr ⟨s, hs, hx⟩)
        · exact Or.inr ⟨g', hg', s, hs, hx⟩

/-- Membership in `find_matches`: some grammar matched at some start offset
and the character span covered a stream position mapping to that word. -/
theorem mem_find_matches (stream : TextStream) (grammars : List Grammar)
    (x : Nat) :
    x ∈ find_matches stream grammars ↔
      ∃ g ∈ grammars, ∃ start, start < stream.text.length ∧
        x ∈ matchAt stream g start := by
  rw [find_matches, mem_find_matches_aux]
  simp

/-- Every index returned by `find_matches` is an entry of the word map. -/
theorem find_matches_subset_word_map (stream : TextStream)
    (grammars : List Grammar) (x : Nat) (hx : x ∈ find_matches stream grammars) :
    x ∈ stream.word_map := by
  rw [mem_find_matches] at hx
  obtain ⟨g, _, s, _, hm⟩ := hx
  obtain ⟨i, hi, rfl⟩ := mem_matchAt hm
  rw [List.getD_eq_getElem _ _ hi]
  exact List.getElem_mem hi

/-- Same-line test of `group_adjacent_words`:
`abs(prev.top - curr.top) < prev.height * 0.5`.  Both operands are Python
integers; multiplying the comparison by 2 gives the equivalent integer test
`2 * abs(prev.top - curr.top) < prev.height` (the float product
`height * 0.5` and the int-to-float conversions are exact for coordinates
below 2^52, so the two comparisons agree on OCR-scale inputs). -/
def same_line (prev curr : Word) : Bool :=
  decide (2 * |prev.top - curr.top| < prev.height)

/-- Adjacency test of `group_adjacent_words`: sequential indices, or the
horizontal gap between the previous word's right edge and the current word's
left edge below 50 pixels. -/
def adjacent_test (prev_idx idx : Nat) (prev curr : Word) : Bool :=
  decide (idx = prev_idx + 1) || decide (curr.left - prev.right < 50)

/-- One iteration of the `group_adjacent_words` loop: extend the current
group when the candidate word is on the same line and adjacent to the
group's last member, otherwise close the current group and start a new
one. -/
def groupStep (words : List Word) (acc : List (List Nat) × List Nat)
    (idx : Nat) : List (List Nat) × List Nat :=
  let prev_idx := acc.2.getLastD 0
  let prev := words.getD prev_idx default
  let curr := words.getD idx default
  if same_line prev curr && adjacent_test prev_idx idx prev curr then
    (acc.1, acc.2 ++ [idx])
  else
    (acc.1 ++ [acc.2], [idx])

/-- `group_adjacent_words`: sort the matched indices ascending and split the
sorted sequence into groups of same-line, adjacent words. -/
def group_adjacent_words (matched_indices : Finset Nat) (words : List Word) :
    List (List Nat) :=
  if matched_indices = ∅ then []
  else
    let sorted_indices := Finset.sort (· ≤ ·) matched_indices
    let r := sorted_indices.tail.foldl (groupStep words)
      ([], [sorted_indices.headD 0])
    r.1 ++ [r.2]

theorem groupStep_foldl_flatten (words : List Word) (l : List Nat) :
    ∀ (acc : List (List Nat) × List Nat),
      ((l.foldl (groupStep words) acc).1 ++
        [(l.foldl (groupStep words) acc).2]).flatten =
      (acc.1 ++ [acc.2]).flatten ++ l := by
  induction l with
  | nil => intro acc; simp
  | cons idx tl ih =>
      intro acc
      rw [List.foldl_cons, ih]
      unfold groupStep
      by_cases h : (same_line (words.getD (acc.2.getLastD 0) default)
          (words.getD idx default) &&
        adjacent_test (acc.2.getLastD 0) idx
          (words.getD (acc.2.getLastD 0) default) (words.getD idx default)) = true
      · rw [if_pos h]
        simp [List.append_assoc]
      · rw [if_neg h]
        simp [List.append_assoc]

/-- The groups produced by `group_adjacent_words`, concatenated in order,
are exactly the ascending sorted sequence of the matched indices: the
grouper only splits the sorted run into contiguous segments. -/
theorem group_adjacent_words_flatten (matched_indices : Finset Nat)
    (words : List Word) :
    (group_adjacent_words matched_indices words).flatten =
      Finset.sort (· ≤ ·) matched_indices := by
  unfold group_adjacent_words
  by_cases h : matched_indices = ∅
  · rw [if_pos h, h]
    simp
  · rw [if_neg h]
    rcases hs : Finset.sort (· ≤ ·) matched_indices with _ | ⟨a, t⟩
    · obtain ⟨x, hx⟩ := Finset.nonempty_iff_ne_empty.mpr h
      rw [← Finset.mem_sort (α := Nat) (· ≤ ·), hs] at hx
      simp at hx
    · simp only [hs, List.headD_cons, List.tail_cons]
      rw [groupStep_foldl_flatten]
      simp

/-- The minimum of a nonempty list of integers, as Python's `min` computes
it over a generator (the `[]` case never arises in the source: `compute_box`
is only called with a nonempty group). -/
def listMin : List Int → Int
  | [] => 0
  | x :: xs => xs.foldl min x

/-- The maximum of a nonempty list of integers (Python's `max`). -/
def listMax : List Int → Int
  | [] => 0
  | x :: xs => xs.foldl max x

/-- `compute_box`: bounding box of a group of words, expanded by `pad` on
every side and clamped to the image extent. -/
def compute_box (words : List Word) (indices : List Nat)
    (img_size : Int × Int) (pad : Int) : Box :=
  let group_words := indices.map fun i => words.getD i default
  { left := max 0 (listMin (group_words.map Word.left) - pad)
    top := max 0 (listMin (group_words.map Word.top) - pad)
    right := min img_size.1 (listMax (group_words.map Word.right) + pad)
    bottom := min img_size.2 (listMax (group_words.map Word.bottom) + pad) }

theorem foldl_min_le (l : List Int) : ∀ (a : Int), l.foldl min a ≤ a := by
  induction l with
  | nil => intro a; simp
  | cons x xs ih =>
      intro a
      rw [List.foldl_cons]
      exact le_trans (ih (min a x)) (min_le_left a x)

theorem foldl_min_le_mem (l : List Int) :
    ∀ (a : Int), ∀ x ∈ l, l.foldl min a ≤ x := by
  induction l with
  | nil => intro a x hx; simp at hx
  | cons y ys ih =>
      intro a x hx
      rw [List.foldl_cons]
      rcases List.mem_cons.mp hx with rfl | hx
      · exact le_trans (foldl_min_le ys (min a x)) (min_le_right a x)
      · exact ih (min a y) x hx

theorem le_foldl_max (l : List Int) : ∀ (a : Int), a ≤ l.foldl max a := by
  induction l with
  | nil => intro a; simp
  | cons x xs ih =>
      intro a
      rw [List.foldl_cons]
      exact le_trans (le_max_left a x) (ih (max a x))

theorem mem_le_foldl_max (l : List Int) :
    ∀ (a : Int), ∀ x ∈ l, x ≤ l.foldl max a := by
  induction l with
  | nil => intro a x hx; simp at hx
  | cons y ys ih =>
      intro a x hx
      rw [List.foldl_cons]
      rcases List.mem_cons.mp hx with rfl | hx
      · exact le_trans (le_max_right a x) (le_foldl_max ys (max a x))
      · exact ih (max a y) x hx

theorem listMin_le_mem (l : List Int) (x : Int) (hx : x ∈ l) : listMin l ≤ x := by
  cases l with
  | nil => simp at hx
  | cons y ys =>
      rcases List.mem_cons.mp hx with rfl | hx
      · exact foldl_min_le ys x
      · exact foldl_min_le_mem ys y x hx

theorem mem_le_listMax (l : List Int) (x : Int) (hx : x ∈ l) : x ≤ listMax l := by
  cases l with
  | nil => simp at hx
  | cons y ys =>
      rcases List.mem_cons.mp hx with rfl | hx
      · exact le_foldl_max ys x
      · exact mem_le_foldl_max ys y x hx

/-- `redact_image`, parameterized by the external collaborators: `ocr_page`
(the OCR engine), `img_size` (the image extent) and `draw_redactions` (the
drawing backend, which fills the boxes on a copy of the image).  Mirrors the
source control flow: no words or no matches return the input image with
count 0; otherwise the matched indices are grouped, boxed and drawn, and the
count is the number of boxes (one per group). -/
def redact_image {Image : Type} (ocr_page : Image → List Word)
    (img_size : Image → Int × Int) (draw_redactions : Image → List Box → Image)
    (img : Image) (grammars : List Grammar) : Image × Nat :=
  let words := ocr_page img
  if words = [] then (img, 0)
  else
    let stream := build_stream words
    let matched := find_matches stream grammars
    if matched = ∅ then (img, 0)
    else
      let groups := group_adjacent_words matched words
      let boxes := groups.map fun group => compute_box words group (img_size img) 4
      (draw_redactions img boxes, boxes.length)

/-- Exit code `EXIT_SUCCESS` of the source. -/
def EXIT_SUCCESS : Nat := 0

/-- Exit code `EXIT_CONFIG_ERROR` of the source. -/
def EXIT_CONFIG_ERROR : Nat := 1

/-- Exit code `EXIT_FILE_ERROR` of the source. -/
def EXIT_FILE_ERROR : Nat := 2

/-- Exit code `EXIT_NO_MATCHES` of the source. -/
def EXIT_NO_MATCHES : Nat := 3

/-- Exit code `EXIT_VERIFICATION_FAILED` of the source. -/
def EXIT_VERIFICATION_FAILED : Nat := 4

/-- Result of processing a single PDF (`JobResult` in the source). -/
structure JobResult where
  input_path : String
  output_path : String
  redactions : Nat
  leaked : Nat
  error_code : Nat
  retried_dpi : Option Nat
deriving DecidableEq, Repr

/-- The world a document job reads and writes, with its stateful parts made
explicit: `redact_pdf` renders, redacts and writes the output document,
returning the redaction count and the new world state; `scan_pdf` re-reads a
document at a resolution and counts surviving match groups;
`compile_grammars` compiles the pattern list inside the worker. -/
structure PdfEnv (S : Type) where
  compile_grammars : List String → List Grammar
  redact_pdf : S → String → String → List Grammar → Nat → Nat × S
  scan_pdf : S → String → List Grammar → Nat → Nat

/-- `_process_single_pdf`: redact at the base resolution; if the count is 0,
retry exactly once at double the resolution, the second result replacing the
first; derive the error code (`NO_MATCHES` on a final count of 0, otherwise
verify — when requested — by re-scanning the output at the resolution
actually used). -/
def process_single_pdf {S : Type} (env : PdfEnv S) (world : S)
    (input_path output_path : String) (patterns : List String)
    (dpi : Nat) (verify : Bool) : JobResult × S :=
  let grammars := env.compile_grammars patterns
  let first := env.redact_pdf world input_path output_path grammars dpi
  let afterRetry :=
    if first.1 = 0 then
      let retried := dpi * 2
      let second := env.redact_pdf first.2 input_path output_path grammars retried
      (second.1, (some retried, second.2))
    else
      (first.1, ((none : Option Nat), first.2))
  let redactions := afterRetry.1
  let retried_dpi := afterRetry.2.1
  let world2 := afterRetry.2.2
  let outcome :=
    if redactions = 0 then (EXIT_NO_MATCHES, 0)
    else if verify then
      let final_dpi := match retried_dpi with
        | some d => d
        | none => dpi
      let leaked := env.scan_pdf world2 output_path grammars final_dpi
      (if leaked > 0 then EXIT_VERIFICATION_FAILED else EXIT_SUCCESS, leaked)
    else (EXIT_SUCCESS, 0)
  (⟨input_path, output_path, redactions, outcome.2, outcome.1, retried_dpi⟩,
   world2)

/-- The exit-code aggregation at the end of `main`: collect the documents
whose `error_code` is `EXIT_VERIFICATION_FAILED` (appended by
`handle_result` to `verification_failures`) and those with
`EXIT_NO_MATCHES` (`no_match_failures`); any verification failure makes the
batch exit `EXIT_VERIFICATION_FAILED`, otherwise any no-match document in
strict mode (`--relaxed` absent) makes it `EXIT_NO_MATCHES`, otherwise
`EXIT_SUCCESS`. -/
def classify_batch (results : List JobResult) (relaxed : Bool) : Nat :=
  let verification_failures :=
    results.filter fun r => r.error_code == EXIT_VERIFICATION_FAILED
  let no_match_failures :=
    results.filter fun r => r.error_code == EXIT_NO_MATCHES
  let exit_code :=
    if verification_failures ≠ [] then EXIT_VERIFICATION_FAILED
    else EXIT_SUCCESS
  if no_match_failures ≠ [] ∧ relaxed = false ∧ exit_code = EXIT_SUCCESS then
    EXIT_NO_MATCHES
  else exit_code

/-- `os.cpu_count() or 1`: the available parallel-execution units, with
`None` (and the impossible 0) falling back to 1. -/
def available_units (cpu_count_os : Option Nat) : Int :=
  match cpu_count_os with
  | none => 1
  | some n => if n = 0 then 1 else (n : Int)

/-- `get_worker_count`: default to half the CPU count (floor 1) when `-j` is
not given, then clamp to at least 1 and at most the number of jobs and the
CPU count. -/
def get_worker_count (jobs_arg : Option Int) (num_jobs : Nat)
    (cpu_count_os : Option Nat) : Int :=
  let cpu_count := available_units cpu_count_os
  let workers :=
    match jobs_arg with
    | none => max 1 (cpu_count / 2)
    | some j => j
  max 1 (min workers (min (num_jobs : Int) cpu_count))

/-- C2: for every word sequence, the `TextStream` produced by `build_stream`
satisfies `len(stream.text) == len(stream.word_map)`; the stream text is
exactly the concatenation of the words' normalized forms in original order;
and for every character index `i` of the stream, the word at `word_map[i]`,
when normalized, contains that character at the corresponding relative
offset (`i` minus the total normalized length of the preceding words). -/
theorem build_stream_spec (words : List Word) :
    (build_stream words).text.length = (build_stream words).word_map.length ∧
    (build_stream words).text = (words.map fun w => normalize w.text).flatten ∧
    (∀ i, i < (build_stream words).text.length →
      (build_stream words).word_map.getD i 0 < words.length ∧
      ((words.take ((build_stream words).word_map.getD i 0)).map
          fun w => (normalize w.text).length).sum ≤ i ∧
      i - ((words.take ((build_stream words).word_map.getD i 0)).map
          fun w => (normalize w.text).length).sum <
        (normalize (words.getD ((build_stream words).word_map.getD i 0)
          default).text).length ∧
      (normalize (words.getD ((build_stream words).word_map.getD i 0)
            default).text).getD
          (i - ((words.take ((build_stream words).word_map.getD i 0)).map
            fun w => (normalize w.text).length).sum) 'A' =
        (build_stream words).text.getD i 'A') := by
  have hbs := build_stream_eq words
  have hL : ∀ k, (((words.map fun w => normalize w.text).take k).map
      List.length).sum = ((words.take k).map fun w => (normalize w.text).length).sum := by
    intro k
    rw [← List.map_take, List.map_map]
    rfl
  refine ⟨?_, ?_, ?_⟩
  · rw [hbs]
    simp [List.length_flatten, repBlocks_length]
  · rw [hbs]
  · intro i hi
    rw [hbs] at hi
    obtain ⟨j, hj, hget, hbase, hlt, heq⟩ :=
      flatten_decomp (words.map fun w => normalize w.text) 'A' 0 i (by simpa using hi)
    rw [Nat.zero_add] at hget
    rw [hbs]
    dsimp only
    rw [hget]
    refine ⟨by simpa using hj, ?_, ?_, ?_⟩
    · rw [← hL]
      exact hbase
    · rw [← hL, ← getD_map_normalize]
      exact hlt
    · rw [← hL, ← getD_map_normalize]
      exact heq.symm

/-- C10: the word map produced by `build_stream` is monotonically
non-decreasing and every entry is a valid index into the word list;
consequently every index returned by `find_matches`, and every index inside
any group produced by `group_adjacent_words` on matcher output, is a valid
word index, so the source's `words[idx]` lookups never go out of bounds. -/
theorem word_map_bounds (words : List Word) (grammars : List Grammar) :
    List.Sorted (· ≤ ·) (build_stream words).word_map ∧
    (∀ x ∈ (build_stream words).word_map, x < words.length) ∧
    (∀ idx ∈ find_matches (build_stream words) grammars, idx < words.length) ∧
    (∀ group ∈ group_adjacent_words
        (find_matches (build_stream words) grammars) words,
      ∀ idx ∈ group, idx < words.length) := by
  have hbs := build_stream_eq words
  have hmem : ∀ x ∈ (build_stream words).word_map, x < words.length := by
    intro x hx
    rw [hbs] at hx
    have := (repBlocks_mem _ 0 x hx).2
    simpa using this
  refine ⟨?_, hmem, ?_, ?_⟩
  · rw [hbs]
    exact repBlocks_sorted _ 0
  · intro idx hidx
    exact hmem idx (find_matches_subset_word_map _ _ _ hidx)
  · intro group hg idx hidx
    have hfl : idx ∈ (group_adjacent_words
        (find_matches (build_stream words) grammars) words).flatten :=
      List.mem_flatten.mpr ⟨group, hg, hidx⟩
    rw [group_adjacent_words_flatten, Finset.mem_sort] at hfl
    exact hmem idx (find_matches_subset_word_map _ _ _ hfl)

/-- C8: a word whose normalization is empty (pure punctuation) contributes
no characters to the stream — its index never occurs in the word map — and
its index is never returned by `find_matches`; it can only be covered by
being grouped with neighboring matched words. -/
theorem pure_punct_never_matched (words : List Word) (grammars : List Grammar)
    (j : Nat) (_hj : j < words.length)
    (hempty : normalize (words.getD j default).text = []) :
    j ∉ (build_stream words).word_map ∧
    j ∉ find_matches (build_stream words) grammars := by
  have hnotin : j ∉ (build_stream words).word_map := by
    intro hmem
    rw [build_stream_eq] at hmem
    have hne := repBlocks_mem_block_ne _ 0 j hmem
    rw [Nat.sub_zero, getD_map_normalize] at hne
    exact hne hempty
  exact ⟨hnotin, fun hmem => hnotin (find_matches_subset_word_map _ _ _ hmem)⟩

/-- C8 witness: the word "—" normalizes to nothing, owns no stream
position and is never matched. -/
theorem pure_punct_never_matched_witness :
    0 ∉ (build_stream [⟨['-'], 0, 0, 1, 1⟩]).word_map ∧
    0 ∉ find_matches (build_stream [⟨['-'], 0, 0, 1, 1⟩]) [] :=
  pure_punct_never_matched [⟨['-'], 0, 0, 1, 1⟩] [] 0 (by decide) (by decide)

/-- C1: if no compiled grammar matches at any start offset of the stream
built from the page's words, `find_matches` returns the empty set and
`redact_image` returns the input image unmodified with redaction count 0. -/
theorem no_match_frame {Image : Type} (ocr_page : Image → List Word)
    (img_size : Image → Int × Int) (draw_redactions : Image → List Box → Image)
    (img : Image) (grammars : List Grammar)
    (h : ∀ g ∈ grammars, ∀ start,
      start < (build_stream (ocr_page img)).text.length →
      g (build_stream (ocr_page img)).text start = none) :
    find_matches (build_stream (ocr_page img)) grammars = ∅ ∧
    redact_image ocr_page img_size draw_redactions img grammars = (img, 0) := by
  have hfm : find_matches (build_stream (ocr_page img)) grammars = ∅ := by
    ext x
    simp only [Finset.not_mem_empty, iff_false]
    rw [mem_find_matches]
    rintro ⟨g, hg, s, hs, hx⟩
    rw [matchAt_none (h g hg s hs)] at hx
    exact absurd hx (Finset.not_mem_empty x)
  refine ⟨hfm, ?_⟩
  simp only [redact_image, hfm]
  split <;> simp

/-- C1 witness: a single grammar that matches nowhere on a one-word page
leaves the image untouched. -/
theorem no_match_frame_witness :
    find_matches (build_stream ((fun _ : Unit => [⟨['A'], 0, 0, 1, 1⟩]) ()))
      [fun _ _ => none] = ∅ ∧
    redact_image (fun _ : Unit => [⟨['A'], 0, 0, 1, 1⟩]) (fun _ => (100, 100))
      (fun i _ => i) () [fun _ _ => none] = ((), 0) :=
  no_match_frame (fun _ : Unit => [⟨['A'], 0, 0, 1, 1⟩]) (fun _ => (100, 100))
    (fun i _ => i) () [fun _ _ => none]
    (by
      intro g hg start _
      rw [List.mem_singleton] at hg
      subst hg
      rfl)

/-- C3: the groups returned by `group_adjacent_words` are ascending runs
(each group is strictly sorted), they are contiguous segments of the
ascending sorted sequence of matched indices (their concatenation in order
is exactly that sorted sequence), no index appears in two groups, and the
union of all groups' indices equals the input matched-index set exactly. -/
theorem group_adjacent_words_partition (matched_indices : Finset Nat)
    (words : List Word) :
    (∀ group ∈ group_adjacent_words matched_indices words,
      List.Sorted (· < ·) group) ∧
    List.Pairwise List.Disjoint (group_adjacent_words matched_indices words) ∧
    (∀ x, (∃ group ∈ group_adjacent_words matched_indices words, x ∈ group) ↔
      x ∈ matched_indices) ∧
    (group_adjacent_words matched_indices words).flatten =
      Finset.sort (· ≤ ·) matched_indices := by
  have hfl := group_adjacent_words_flatten matched_indices words
  have hnd : (group_adjacent_words matched_indices words).flatten.Nodup := by
    rw [hfl]
    exact Finset.sort_nodup _ _
  have hsorted : List.Sorted (· < ·)
      (group_adjacent_words matched_indices words).flatten := by
    rw [hfl]
    exact Finset.sort_sorted_lt _
  refine ⟨?_, (List.nodup_flatten.mp hnd).2, ?_, hfl⟩
  · intro group hg
    exact List.Pairwise.sublist (List.sublist_flatten_of_mem hg) hsorted
  · intro x
    rw [← List.mem_flatten, hfl, Finset.mem_sort]

/-- C4 counterexample: the claim quantifies over every pad, but with a
negative pad the box need not contain the member word's rectangle: for the
single word at (50,50) of size 10×10 in a 1000×1000 image and pad −100 the
box's left edge is 150, strictly to the right of the word's left edge 50. -/
theorem compute_box_negative_pad_cex :
    (compute_box [⟨['A'], 50, 50, 10, 10⟩] [0] (1000, 1000) (-100)).left = 150 ∧
    ¬((compute_box [⟨['A'], 50, 50, 10, 10⟩] [0] (1000, 1000) (-100)).left ≤
      (([⟨['A'], 50, 50, 10, 10⟩] : List Word).getD 0 default).left) := by
  constructor
  · rfl
  · decide

/-- C4 (amended): for every non-empty group of valid indices, every
non-negative pad, and member words of non-negative width and height whose
rectangles lie within `[0,W] × [0,H]`, the box returned by `compute_box`
contains every member word's rectangle (before padding) and lies within
`[0,W] × [0,H]`. -/
theorem compute_box_contains (words : List Word) (indices : List Nat)
    (W H pad : Int) (hne : indices ≠ [])
    (_hidx : ∀ i ∈ indices, i < words.length) (hpad : 0 ≤ pad)
    (hin : ∀ i ∈ indices,
      0 ≤ (words.getD i default).left ∧ (words.getD i default).right ≤ W ∧
      0 ≤ (words.getD i default).top ∧ (words.getD i default).bottom ≤ H ∧
      0 ≤ (words.getD i default).width ∧ 0 ≤ (words.getD i default).height) :
    (∀ i ∈ indices,
      (compute_box words indices (W, H) pad).left ≤ (words.getD i default).left ∧
      (words.getD i default).right ≤ (compute_box words indices (W, H) pad).right ∧
      (compute_box words indices (W, H) pad).top ≤ (words.getD i default).top ∧
      (words.getD i default).bottom ≤
        (compute_box words indices (W, H) pad).bottom) ∧
    0 ≤ (compute_box words indices (W, H) pad).left ∧
    (compute_box words indices (W, H) pad).left ≤
      (compute_box words indices (W, H) pad).right ∧
    (compute_box words indices (W, H) pad).right ≤ W ∧
    0 ≤ (compute_box words indices (W, H) pad).top ∧
    (compute_box words indices (W, H) pad).top ≤
      (compute_box words indices (W, H) pad).bottom ∧
    (compute_box words indices (W, H) pad).bottom ≤ H := by
  have hleft : (compute_box words indices (W, H) pad).left =
      max 0 (listMin ((indices.map fun k => words.getD k default).map Word.left)
        - pad) := rfl
  have htop : (compute_box words indices (W, H) pad).top =
      max 0 (listMin ((indices.map fun k => words.getD k default).map Word.top)
        - pad) := rfl
  have hright : (compute_box words indices (W, H) pad).right =
      min W (listMax ((indices.map fun k => words.getD k default).map Word.right)
        + pad) := rfl
  have hbottom : (compute_box words indices (W, H) pad).bottom =
      min H (listMax ((indices.map fun k => words.getD k default).map Word.bottom)
        + pad) := rfl
  have hcont : ∀ i ∈ indices,
      (compute_box words indices (W, H) pad).left ≤ (words.getD i default).left ∧
      (words.getD i default).right ≤ (compute_box words indices (W, H) pad).right ∧
      (compute_box words indices (W, H) pad).top ≤ (words.getD i default).top ∧
      (words.getD i default).bottom ≤
        (compute_box words indices (W, H) pad).bottom := by
    intro i hi
    have hw : words.getD i default ∈ indices.map fun k => words.getD k default :=
      List.mem_map.mpr ⟨i, hi, rfl⟩
    obtain ⟨hl, hr, ht, hb, hwd, hht⟩ := hin i hi
    refine ⟨?_, ?_, ?_, ?_⟩
    · rw [hleft]
      refine max_le hl ?_
      have := listMin_le_mem _ _ (List.mem_map.mpr ⟨_, hw, rfl⟩ :
        (words.getD i default).left ∈
          (indices.map fun k => words.getD k default).map Word.left)
      omega
    · rw [hright]
      refine le_min hr ?_
      have := mem_le_listMax _ _ (List.mem_map.mpr ⟨_, hw, rfl⟩ :
        (words.getD i default).right ∈
          (indices.map fun k => words.getD k default).map Word.right)
      omega
    · rw [htop]
      refine max_le ht ?_
      have := listMin_le_mem _ _ (List.mem_map.mpr ⟨_, hw, rfl⟩ :
        (words.getD i default).top ∈
          (indices.map fun k => words.getD k default).map Word.top)
      omega
    · rw [hbottom]
      refine le_min hb ?_
      have := mem_le_listMax _ _ (List.mem_map.mpr ⟨_, hw, rfl⟩ :
        (words.getD i default).bottom ∈
          (indices.map fun k => words.getD k default).map Word.bottom)
      omega
  obtain ⟨i0, hi0⟩ := List.exists_mem_of_ne_nil indices hne
  obtain ⟨hcl, hcr, hct, hcb⟩ := hcont i0 hi0
  obtain ⟨hl0, hr0, ht0, hb0, hwd0, hht0⟩ := hin i0 hi0
  have hlr0 : (words.getD i0 default).left ≤ (words.getD i0 default).right := by
    unfold Word.right at *
    omega
  have htb0 : (words.getD i0 default).top ≤ (words.getD i0 default).bottom := by
    unfold Word.bottom at *
    omega
  refine ⟨hcont, ?_, ?_, ?_, ?_, ?_, ?_⟩
  · rw [hleft]; exact le_max_left _ _
  · exact le_trans hcl (le_trans hlr0 hcr)
  · rw [hright]; exact min_le_left _ _
  · rw [htop]; exact le_max_left _ _
  · exact le_trans hct (le_trans htb0 hcb)
  · rw [hbottom]; exact min_le_left _ _

/-- C4 witness: a concrete in-bounds word with pad 4 gives a box inside the
image. -/
theorem compute_box_contains_witness :
    0 ≤ (compute_box [⟨['A'], 50, 50, 10, 10⟩] [0] (1000, 1000) 4).left ∧
    (compute_box [⟨['A'], 50, 50, 10, 10⟩] [0] (1000, 1000) 4).right ≤ 1000 :=
  ⟨(compute_box_contains [⟨['A'], 50, 50, 10, 10⟩] [0] 1000 1000 4
      (by decide) (by decide) (by decide) (by decide)).2.1,
   (compute_box_contains [⟨['A'], 50, 50, 10, 10⟩] [0] 1000 1000 4
      (by decide) (by decide) (by decide) (by decide)).2.2.2.1⟩

/-- C5: the worker derives `error_code` thus: `NO_MATCHES` exactly when the
final redaction count (after the retry) is 0; when verification was
requested and redactions remain positive, `leaked` is the result of
re-scanning the output document in the final world state at the resolution
actually used (`retried_dpi` if a retry happened, else `dpi`) and
`error_code` is `VERIFICATION_FAILED` exactly when `leaked > 0`, otherwise
success; without verification the result is success with `leaked = 0`, and
verification never runs when the redaction count is 0. -/
theorem process_single_pdf_error_code {S : Type} (env : PdfEnv S) (world : S)
    (input_path output_path : String) (patterns : List String) (dpi : Nat)
    (verify : Bool) :
    ((process_single_pdf env world input_path output_path patterns dpi
        verify).1.error_code = EXIT_NO_MATCHES ↔
      (process_single_pdf env world input_path output_path patterns dpi
        verify).1.redactions = 0) ∧
    ((process_single_pdf env world input_path output_path patterns dpi
        verify).1.redactions = 0 →
      (process_single_pdf env world input_path output_path patterns dpi
        verify).1.leaked = 0) ∧
    (verify = false →
      (process_single_pdf env world input_path output_path patterns dpi
        verify).1.leaked = 0 ∧
      ((process_single_pdf env world input_path output_path patterns dpi
          verify).1.redactions ≠ 0 →
        (process_single_pdf env world input_path output_path patterns dpi
          verify).1.error_code = EXIT_SUCCESS)) ∧
    (verify = true →
      (process_single_pdf env world input_path output_path patterns dpi
        verify).1.redactions ≠ 0 →
      (process_single_pdf env world input_path output_path patterns dpi
          verify).1.leaked =
        env.scan_pdf
          (process_single_pdf env world input_path output_path patterns dpi
            verify).2
          output_path (env.compile_grammars patterns)
          (match (process_single_pdf env world input_path output_path patterns
              dpi verify).1.retried_dpi with
            | some d => d
            | none => dpi) ∧
      ((process_single_pdf env world input_path output_path patterns dpi
          verify).1.error_code = EXIT_VERIFICATION_FAILED ↔
        0 < (process_single_pdf env world input_path output_path patterns dpi
          verify).1.leaked) ∧
      ((process_single_pdf env world input_path output_path patterns dpi
          verify).1.error_code = EXIT_SUCCESS ↔
        (process_single_pdf env world input_path output_path patterns dpi
          verify).1.leaked = 0)) := by
  simp only [process_single_pdf]
  split_ifs <;>
    simp_all [EXIT_SUCCESS, EXIT_NO_MATCHES, EXIT_VERIFICATION_FAILED] <;>
    omega

/-- C6: if the first full pass at the base resolution yields 0 redactions,
the orchestrator re-runs the redaction exactly once at double the
resolution, records `retried_dpi = dpi*2`, and the second attempt's count
replaces the first whether or not it finds matches (no further retry:
whatever the second call returns is final); if the first pass yields a
nonzero count no retry happens; and when the base pass yields 0 while the
doubled-resolution pass yields more than 0, the final result has
`retried_dpi = 2*dpi` and `redactions > 0`. -/
theorem process_single_pdf_retry {S : Type} (env : PdfEnv S) (world : S)
    (input_path output_path : String) (patterns : List String) (dpi : Nat)
    (verify : Bool) :
    ((env.redact_pdf world input_path output_path
        (env.compile_grammars patterns) dpi).1 = 0 →
      (process_single_pdf env world input_path output_path patterns dpi
        verify).1.retried_dpi = some (dpi * 2) ∧
      (process_single_pdf env world input_path output_path patterns dpi
          verify).1.redactions =
        (env.redact_pdf
          (env.redact_pdf world input_path output_path
            (env.compile_grammars patterns) dpi).2
          input_path output_path (env.compile_grammars patterns) (dpi * 2)).1) ∧
    ((env.redact_pdf world input_path output_path
        (env.compile_grammars patterns) dpi).1 ≠ 0 →
      (process_single_pdf env world input_path output_path patterns dpi
        verify).1.retried_dpi = none ∧
      (process_single_pdf env world input_path output_path patterns dpi
          verify).1.redactions =
        (env.redact_pdf world input_path output_path
          (env.compile_grammars patterns) dpi).1) ∧
    ((env.redact_pdf world input_path output_path
        (env.compile_grammars patterns) dpi).1 = 0 →
      0 < (env.redact_pdf
          (env.redact_pdf world input_path output_path
            (env.compile_grammars patterns) dpi).2
          input_path output_path (env.compile_grammars patterns) (dpi * 2)).1 →
      (process_single_pdf env world input_path output_path patterns dpi
        verify).1.retried_dpi = some (2 * dpi) ∧
      0 < (process_single_pdf env world input_path output_path patterns dpi
        verify).1.redactions) := by
  simp only [process_single_pdf]
  refine ⟨?_, ?_, ?_⟩
  · intro h1
    rw [if_pos h1]
    exact ⟨rfl, rfl⟩
  · intro h1
    rw [if_neg h1]
    exact ⟨rfl, rfl⟩
  · intro h1 h2
    rw [if_pos h1]
    exact ⟨by rw [Nat.mul_comm], h2⟩

/-- C7: the batch classification is `VERIFICATION_FAILED` (4) if any
document leaked, else `NO_MATCHES` (3) if any document had zero matches and
strict mode (not `--relaxed`) is active, else `SUCCESS` (0); the exit
values are bit-exact (`SUCCESS=0, CONFIG_ERROR=1, FILE_ERROR=2,
NO_MATCHES=3, VERIFICATION_FAILED=4`).  The hypothesis is the worker
invariant proved for `process_single_pdf`: a result's `error_code` is
`VERIFICATION_FAILED` exactly when it leaked and `NO_MATCHES` exactly when
its redaction count is 0. -/
theorem classify_batch_spec (results : List JobResult) (relaxed : Bool)
    (hworker : ∀ r ∈ results,
      (r.error_code = EXIT_VERIFICATION_FAILED ↔ 0 < r.leaked) ∧
      (r.error_code = EXIT_NO_MATCHES ↔ r.redactions = 0)) :
    (EXIT_SUCCESS = 0 ∧ EXIT_CONFIG_ERROR = 1 ∧ EXIT_FILE_ERROR = 2 ∧
      EXIT_NO_MATCHES = 3 ∧ EXIT_VERIFICATION_FAILED = 4) ∧
    classify_batch results relaxed =
      (if ∃ r ∈ results, 0 < r.leaked then EXIT_VERIFICATION_FAILED
       else if (∃ r ∈ results, r.redactions = 0) ∧ relaxed = false then
         EXIT_NO_MATCHES
       else EXIT_SUCCESS) := by
  have hvf : ((results.filter fun r =>
      r.error_code == EXIT_VERIFICATION_FAILED) ≠ []) ↔
      ∃ r ∈ results, 0 < r.leaked := by
    rw [Ne, List.filter_eq_nil_iff]
    push_neg
    constructor
    · rintro ⟨r, hr, hp⟩
      exact ⟨r, hr, (hworker r hr).1.mp (by simpa using hp)⟩
    · rintro ⟨r, hr, hl⟩
      exact ⟨r, hr, by simp [(hworker r hr).1.mpr hl]⟩
  have hnm : ((results.filter fun r =>
      r.error_code == EXIT_NO_MATCHES) ≠ []) ↔
      ∃ r ∈ results, r.redactions = 0 := by
    rw [Ne, List.filter_eq_nil_iff]
    push_neg
    constructor
    · rintro ⟨r, hr, hp⟩
      exact ⟨r, hr, (hworker r hr).2.mp (by simpa using hp)⟩
    · rintro ⟨r, hr, hl⟩
      exact ⟨r, hr, by simp [(hworker r hr).2.mpr hl]⟩
  refine ⟨⟨rfl, rfl, rfl, rfl, rfl⟩, ?_⟩
  simp only [classify_batch]
  by_cases h1 : ∃ r ∈ results, 0 < r.leaked
  · rw [if_pos (hvf.mpr h1), if_pos h1]
    simp [EXIT_VERIFICATION_FAILED, EXIT_SUCCESS, EXIT_NO_MATCHES]
  · have h1' : (results.filter fun r =>
        r.error_code == EXIT_VERIFICATION_FAILED) = [] := by
      by_contra hc
      exact h1 (hvf.mp hc)
    rw [if_neg (fun hc => h1 (hvf.mp hc)), if_neg h1]
    by_cases h2 : ∃ r ∈ results, r.redactions = 0
    · by_cases h3 : relaxed = false
      · rw [if_pos ⟨hnm.mpr h2, h3, rfl⟩, if_pos ⟨h2, h3⟩]
      · rw [if_neg (fun hc => h3 hc.2.1), if_neg (fun hc => h3 hc.2)]
    · rw [if_neg (fun hc => h2 (hnm.mp hc.1)), if_neg (fun hc => h2 hc.1)]

/-- C7 witness: one successfully redacted document and one no-match
document in strict mode classify the batch as `NO_MATCHES`. -/
theorem classify_batch_spec_witness :
    (EXIT_SUCCESS = 0 ∧ EXIT_CONFIG_ERROR = 1 ∧ EXIT_FILE_ERROR = 2 ∧
      EXIT_NO_MATCHES = 3 ∧ EXIT_VERIFICATION_FAILED = 4) ∧
    classify_batch [⟨"a.pdf", "out1.pdf", 2, 0, 0, none⟩,
        ⟨"b.pdf", "out2.pdf", 0, 0, 3, some 600⟩] false =
      (if ∃ r ∈ [(⟨"a.pdf", "out1.pdf", 2, 0, 0, none⟩ : JobResult),
            ⟨"b.pdf", "out2.pdf", 0, 0, 3, some 600⟩], 0 < r.leaked then
         EXIT_VERIFICATION_FAILED
       else if (∃ r ∈ [(⟨"a.pdf", "out1.pdf", 2, 0, 0, none⟩ : JobResult),
              ⟨"b.pdf", "out2.pdf", 0, 0, 3, some 600⟩], r.redactions = 0) ∧
            false = false then
         EXIT_NO_MATCHES
       else EXIT_SUCCESS) :=
  classify_batch_spec
    [⟨"a.pdf", "out1.pdf", 2, 0, 0, none⟩,
     ⟨"b.pdf", "out2.pdf", 0, 0, 3, some 600⟩] false (by decide)

/-- C9 counterexample: the claim clamps into
`[1, min(requested, job_count, available_units)]` for every requested
value, but a requested worker count of 0 with 5 jobs and 4 units resolves
to 1, which exceeds `min(0, 5, 4) = 0`. -/
theorem get_worker_count_cex :
    get_worker_count (some 0) 5 (some 4) = 1 ∧
    ¬(get_worker_count (some 0) 5 (some 4) ≤
      min (0 : Int) (min (5 : Int) (4 : Int))) := by
  constructor
  · rfl
  · decide

theorem one_le_available_units (cpu_count_os : Option Nat) :
    1 ≤ available_units cpu_count_os := by
  unfold available_units
  rcases cpu_count_os with _ | n
  · norm_num
  · split <;> omega

/-- C9 (amended): the resolved worker count is always at least 1; when the
requested count is unset, it is computed from a default of half the
available units with floor 1; and whenever the requested count (or that
default) and the job count are at least 1, the result is clamped into
`[1, min(requested, job_count, available_units)]` — never more workers
than jobs. -/
theorem get_worker_count_clamped (jobs_arg : Option Int) (num_jobs : Nat)
    (cpu_count_os : Option Nat) :
    1 ≤ get_worker_count jobs_arg num_jobs cpu_count_os ∧
    (get_worker_count none num_jobs cpu_count_os =
      max 1 (min (max 1 (available_units cpu_count_os / 2))
        (min (num_jobs : Int) (available_units cpu_count_os)))) ∧
    (∀ j : Int, jobs_arg = some j → 1 ≤ j → 1 ≤ num_jobs →
      get_worker_count jobs_arg num_jobs cpu_count_os ≤
        min j (min (num_jobs : Int) (available_units cpu_count_os))) ∧
    (jobs_arg = none → 1 ≤ num_jobs →
      get_worker_count jobs_arg num_jobs cpu_count_os ≤
        min (max 1 (available_units cpu_count_os / 2))
          (min (num_jobs : Int) (available_units cpu_count_os))) := by
  have hcpu := one_le_available_units cpu_count_os
  refine ⟨le_max_left _ _, rfl, ?_, ?_⟩
  · intro j hj h1j h1n
    subst hj
    simp only [get_worker_count]
    have hn : (1 : Int) ≤ (num_jobs : Int) := by exact_mod_cast h1n
    omega
  · intro hj h1n
    subst hj
    simp only [get_worker_count]
    have hn : (1 : Int) ≤ (num_jobs : Int) := by exact_mod_cast h1n
    generalize available_units cpu_count_os / 2 = t at *
    omega

end BleachPdf
